import Mathlib

set_option maxRecDepth 40000

/-!
# WiCAN Data Logger v3 — verification of the specified core

Shallow embedding of `wican_logger_v3.py`: the probe (`check_wican`), the
three-phase discovery engine (`discover_wican`, `scan_subnet`), the
acquisition-loop pacing and failure-notice logic, and the schema-evolving
CSV log writer (`rewrite_csv` plus the per-tick recording code in `main`).

Network I/O is modelled by an environment `Net` mapping an address and a
timeout to the outcome of the HTTP GET: either a transport/timeout error or
a body, the body being already classified by whether `json.loads` succeeds
(`some j` for a parseable body with JSON value `j`, `none` for a parse
failure).  Python dictionaries are modelled as association lists built by
insertion-with-overwrite, which keeps keys duplicate-free exactly as a
`dict` does.
-/

namespace WiCAN

/-- JSON values, as produced by `json.loads`. -/
inductive Json where
  | null : Json
  | bool (b : Bool) : Json
  | num (q : ℚ) : Json
  | str (s : String) : Json
  | arr (elems : List Json) : Json
  | obj (fields : List (String × Json)) : Json

/-- Whether a JSON value is "structured data": an object or an array. -/
def Json.isStructured : Json → Bool
  | .obj _ => true
  | .arr _ => true
  | _ => false

/-- Outcome of the HTTP GET inside `check_wican`: a transport-level error
(connection failure, timeout, bad decode) or a body; the body carries the
result of `json.loads` (`none` when parsing raises). -/
inductive Response where
  | err : Response
  | ok (parsed : Option Json) : Response

/-- The network environment: what a GET to `http://<addr>/autopid_data`
with a given timeout yields. -/
def Net : Type := String → ℚ → Response

/-- The body of `check_wican` before the `try/except`: `urlopen` +
`read().decode()` may raise (modelled `.error`), `json.loads` may raise
(`.error`); on success the function returns the probed address. -/
def rawCheck (net : Net) (ip : String) (timeout : ℚ) : Except Unit String :=
  match net ip timeout with
  | .err => .error ()
  | .ok none => .error ()
  | .ok (some _) => .ok ip

/-- `check_wican(ip, timeout=1)`: the `try/except` boundary turns any
raised error into `None`. -/
def check_wican (net : Net) (ip : String) (timeout : ℚ := 1) : Option String :=
  match rawCheck net ip timeout with
  | .ok v => some v
  | .error _ => none

/-- Whether the probe confirms `ip` under environment `net` at `timeout`. -/
def confirmed (net : Net) (ip : String) (timeout : ℚ := 1) : Bool :=
  (check_wican net ip timeout).isSome

end WiCAN

namespace WiCAN

/-- C3: the probe never lets an error escape: every raising execution of
the body maps to `None`, and the probe's only results are `None` and the
confirmed address itself. -/
theorem check_wican_no_escape (net : Net) (ip : String) (timeout : ℚ) :
    (∀ e : Unit, rawCheck net ip timeout = .error e → check_wican net ip timeout = none) ∧
    (check_wican net ip timeout = some ip ∨ check_wican net ip timeout = none) := by
  constructor
  · intro e he
    simp [check_wican, he]
  · unfold check_wican rawCheck
    cases h : net ip timeout with
    | err => right; rfl
    | ok p => cases p with
      | none => right; rfl
      | some j => left; rfl

/-- Witness for C3 at a concrete erroring environment. -/
theorem check_wican_no_escape_witness :
    check_wican (fun _ _ => .err) "192.168.8.102" 1 = none :=
  (check_wican_no_escape (fun _ _ => .err) "192.168.8.102" 1).1 () rfl

/-- An environment in which every GET yields a body whose `json.loads`
result is the bare number `42` — valid JSON, but not an object or array. -/
def bareNumberNet : Net := fun _ _ => .ok (some (.num 42))

/-- C4 counterexample: the body parses to a bare number (not an object or
array), yet `check_wican` confirms the address — `json.loads(data)` accepts
any JSON value, so the claimed object/array restriction does not hold. -/
theorem check_wican_bare_number_confirms :
    check_wican bareNumberNet "192.168.8.102" 1 = some "192.168.8.102" ∧
    (Json.num 42).isStructured = false := by
  exact ⟨rfl, rfl⟩

/-- C4 amended: the probe confirms the address iff the response body parses
as *any* JSON value (object, array, number, string, boolean or null); only
transport errors and parse failures yield not-confirmed. -/
theorem check_wican_confirms_iff_parses (net : Net) (ip : String) (timeout : ℚ) :
    check_wican net ip timeout = some ip ↔
      ∃ j : Json, net ip timeout = .ok (some j) := by
  unfold check_wican rawCheck
  cases h : net ip timeout with
  | err =>
    simp only []
    constructor
    · intro hc; cases hc
    · rintro ⟨j, hj⟩; cases hj
  | ok p =>
    cases p with
    | none =>
      simp only []
      constructor
      · intro hc; cases hc
      · rintro ⟨j, hj⟩; cases hj
    | some j =>
      simp only []
      constructor
      · intro _; exact ⟨j, rfl⟩
      · intro _; trivial

end WiCAN

namespace WiCAN

/-! ## Discovery engine -/

/-- The fixed hostname candidate list `WICAN_HOSTNAMES`. -/
def WICAN_HOSTNAMES : List String := ["wican.local", "wican"]

/-- The fixed well-known address list `common_ips` in `discover_wican`. -/
def common_ips : List String :=
  ["192.168.8.102", "192.168.4.1", "192.168.1.100",
   "192.168.1.102", "192.168.0.100", "192.168.0.102"]

/-- Hostname resolution environment: `socket.gethostbyname`, with `none`
for a raised resolution failure. -/
def Resolver : Type := String → Option String

/-- Phase 1 of `discover_wican`: walk the hostname list; on successful
resolution probe the address (default 1s timeout) and return it if
confirmed; resolution failure or an unconfirmed probe moves on. -/
def hostnamePhase (res : Resolver) (net : Net) : List String → Option String
  | [] => none
  | h :: rest =>
    match res h with
    | some ip => if confirmed net ip then some ip else hostnamePhase res net rest
    | none => hostnamePhase res net rest

/-- The scan over `zip(common_ips, results)` in phase 2: return the first
candidate whose probe result is truthy. -/
def firstConfirmedZip : List (String × Option String) → Option String
  | [] => none
  | (ip, r) :: rest => if r.isSome then some ip else firstConfirmedZip rest

/-- Phase 2 of `discover_wican`: probe every address of `common_ips`
(executor.map preserves list order) and take the first confirmed one. -/
def commonIpPhase (net : Net) : Option String :=
  firstConfirmedZip (common_ips.zip (common_ips.map (fun ip => check_wican net ip)))

/-- `range(start, end + 1)` in `scan_subnet`: the final octets probed. -/
def scanRange (start e : ℕ) : List ℕ := List.range' start (e + 1 - start)

/-- Address of host `i` on `subnet` (first three octets). -/
def hostAddr (subnet : String) (i : ℕ) : String := subnet ++ "." ++ toString i

/-- `scan_subnet(subnet, start=1, end=255)`: probe every host of the range
with timeout 0.5 (executor.map preserves order) and collect the confirmed
addresses in probe order. -/
def scan_subnet (net : Net) (subnet : String) (start : ℕ := 1) (e : ℕ := 255) :
    List String :=
  ((scanRange start e).map (hostAddr subnet)).filter
    (fun ip => (check_wican net ip 0.5).isSome)

/-- The final octets of the confirmed hosts, in probe order. -/
def confirmedOctets (net : Net) (subnet : String) : List ℕ :=
  (scanRange 1 255).filter (fun i => (check_wican net (hostAddr subnet i) 0.5).isSome)

/-- Phase 3 of `discover_wican`: sweep the subnets in order, returning
`found[0]` from the first subnet whose sweep found anything. -/
def subnetPhase (net : Net) : List String → Option String
  | [] => none
  | s :: rest =>
    match scan_subnet net s with
    | [] => subnetPhase net rest
    | ip :: _ => some ip

/-- `discover_wican()`: hostname phase, then well-known-address phase, then
subnet sweep, each phase returning early on success.  The subnet list
(`get_subnets_to_scan`, environment-dependent) is a parameter. -/
def discover_wican (res : Resolver) (net : Net) (subnets : List String) :
    Option String :=
  match hostnamePhase res net WICAN_HOSTNAMES with
  | some ip => some ip
  | none =>
    match commonIpPhase net with
    | some ip => some ip
    | none => subnetPhase net subnets

/-- Scanning the zipped batch equals taking the first list element whose
probe succeeded. -/
theorem firstConfirmedZip_eq_find (f : String → Option String) (l : List String) :
    firstConfirmedZip (l.zip (l.map f)) = l.find? (fun ip => (f ip).isSome) := by
  induction l with
  | nil => rfl
  | cons a l ih =>
    simp only [List.map_cons, List.zip_cons_cons, firstConfirmedZip, List.find?]
    cases h : (f a).isSome with
    | true => simp [h]
    | false => simp only [h, Bool.false_eq_true, if_false]; exact ih

/-- `find?` only depends on the predicate's values on the list. -/
theorem find_congr_on {α : Type} (p q : α → Bool) (l : List α)
    (h : ∀ x ∈ l, p x = q x) : l.find? p = l.find? q := by
  induction l with
  | nil => rfl
  | cons a l ih =>
    have ha : p a = q a := h a (List.mem_cons_self a l)
    simp only [List.find?]
    rw [ha]
    cases q a with
    | true => rfl
    | false => exact ih (fun x hx => h x (List.mem_cons_of_mem a hx))

/-- C5: discovery phase ordering.  The hostname phase decides first; only
when it yields nothing does the well-known-address phase decide; only when
both yield nothing does the subnet sweep decide.  Within the hostname
phase the first confirmed candidate wins regardless of later candidates,
and within the sweep the first subnet with a hit wins. -/
theorem discover_wican_phase_ordering (res : Resolver) (net : Net)
    (subnets : List String) :
    (∀ ip, hostnamePhase res net WICAN_HOSTNAMES = some ip →
       discover_wican res net subnets = some ip) ∧
    (hostnamePhase res net WICAN_HOSTNAMES = none →
       ∀ ip, commonIpPhase net = some ip → discover_wican res net subnets = some ip) ∧
    (hostnamePhase res net WICAN_HOSTNAMES = none → commonIpPhase net = none →
       discover_wican res net subnets = subnetPhase net subnets) ∧
    (∀ h rest ip, res h = some ip → confirmed net ip = true →
       hostnamePhase res net (h :: rest) = some ip) ∧
    (∀ s rest ip t, scan_subnet net s = ip :: t →
       subnetPhase net (s :: rest) = some ip) := by
  refine ⟨?_, ?_, ?_, ?_, ?_⟩
  · intro ip h1
    simp [discover_wican, h1]
  · intro h1 ip h2
    simp [discover_wican, h1, h2]
  · intro h1 h2
    simp [discover_wican, h1, h2]
  · intro h rest ip hres hconf
    simp [hostnamePhase, hres, hconf]
  · intro s rest ip t hscan
    simp [subnetPhase, hscan]

/-- Witness for C5: a resolver that knows `wican.local` and an environment
confirming every probe make discovery return from the hostname phase. -/
theorem discover_wican_phase_ordering_witness :
    discover_wican (fun h => if h = "wican.local" then some "10.0.0.5" else none)
      (fun _ _ => .ok (some .null)) [] = some "10.0.0.5" :=
  (discover_wican_phase_ordering
      (fun h => if h = "wican.local" then some "10.0.0.5" else none)
      (fun _ _ => .ok (some .null)) []).1 "10.0.0.5" (by decide)

/-- C7: the well-known-address phase returns the earliest confirmed
candidate of the fixed list, and its result is a deterministic function of
which candidates confirmed. -/
theorem commonIpPhase_tiebreak (net net' : Net) :
    commonIpPhase net = common_ips.find? (fun ip => confirmed net ip) ∧
    ((∀ ip ∈ common_ips, confirmed net ip = confirmed net' ip) →
       commonIpPhase net = commonIpPhase net') := by
  have key : ∀ m : Net, commonIpPhase m = common_ips.find? (fun ip => confirmed m ip) := by
    intro m
    unfold commonIpPhase confirmed
    exact firstConfirmedZip_eq_find (fun ip => check_wican m ip) common_ips
  refine ⟨key net, ?_⟩
  intro hsame
  rw [key net, key net']
  exact find_congr_on _ _ _ hsame

/-- Witness for C7 at two concrete environments that confirm the same
candidates: only the second list entry responds. -/
theorem commonIpPhase_tiebreak_witness :
    commonIpPhase (fun ip _ => if ip = "192.168.4.1" then .ok (some .null) else .err)
      = commonIpPhase (fun ip _ => if ip = "192.168.4.1" then .ok (some (.obj [])) else .err) :=
  (commonIpPhase_tiebreak
      (fun ip _ => if ip = "192.168.4.1" then .ok (some .null) else .err)
      (fun ip _ => if ip = "192.168.4.1" then .ok (some (.obj [])) else .err)).2
    (by decide)

/-- The head of a filtered strictly increasing list is its least member
satisfying the predicate. -/
theorem filter_head_min {l : List ℕ} {p : ℕ → Bool} {a : ℕ} {t : List ℕ}
    (hs : l.Pairwise (· < ·)) (h : l.filter p = a :: t) :
    p a = true ∧ a ∈ l ∧ ∀ b ∈ l, p b = true → a ≤ b := by
  induction l generalizing t with
  | nil => simp at h
  | cons x xs ih =>
    rcases List.pairwise_cons.mp hs with ⟨hx, hxs⟩
    cases hp : p x with
    | true =>
      rw [List.filter_cons_of_pos hp] at h
      obtain ⟨rfl, _⟩ : x = a ∧ List.filter p xs = t := by
        exact ⟨(List.cons.injEq _ _ _ _ ▸ h).1, (List.cons.injEq _ _ _ _ ▸ h).2⟩
      refine ⟨hp, List.mem_cons_self _ _, ?_⟩
      intro b hb _
      rcases List.mem_cons.mp hb with rfl | hb'
      · exact le_refl b
      · exact le_of_lt (hx b hb')
    | false =>
      rw [List.filter_cons_of_neg (by simp [hp])] at h
      obtain ⟨hpa, hmem, hmin⟩ := ih hxs h
      refine ⟨hpa, List.mem_cons_of_mem _ hmem, ?_⟩
      intro b hb hpb
      rcases List.mem_cons.mp hb with rfl | hb'
      · rw [hp] at hpb; cases hpb
      · exact hmin b hb' hpb

/-- C6 counterexample: `scan_subnet` probes the octet range
`range(1, 256)` — the final octet 255 is probed and the range has 255
elements, not the claimed 254 elements with octets 1 through 254. -/
theorem scan_subnet_probes_octet_255 :
    255 ∈ scanRange 1 255 ∧ (scanRange 1 255).length ≠ 254 := by
  constructor
  · decide
  · decide

/-- C6 amended: each subnet sweep probes exactly the 255 host addresses
with final octet 1 through 255; the sweep stops at the first subnet with a
confirmed address, and the address it returns is the confirmed one with
the numerically smallest final octet. -/
theorem subnet_sweep_postcondition (net : Net) (subnet : String) (rest : List String)
    (o : ℕ) (t : List ℕ) (h : confirmedOctets net subnet = o :: t) :
    ((scanRange 1 255).length = 255 ∧
      ∀ i, i ∈ scanRange 1 255 ↔ 1 ≤ i ∧ i ≤ 255) ∧
    scan_subnet net subnet = (confirmedOctets net subnet).map (hostAddr subnet) ∧
    (∀ s', scan_subnet net s' = [] →
       subnetPhase net (s' :: rest) = subnetPhase net rest) ∧
    subnetPhase net (subnet :: rest) = some (hostAddr subnet o) ∧
    (check_wican net (hostAddr subnet o) 0.5).isSome = true ∧
    1 ≤ o ∧ o ≤ 255 ∧
    (∀ o', 1 ≤ o' → o' ≤ 255 →
       (check_wican net (hostAddr subnet o') 0.5).isSome = true → o ≤ o') := by
  have hrange : ∀ i, i ∈ scanRange 1 255 ↔ 1 ≤ i ∧ i ≤ 255 := by
    intro i
    unfold scanRange
    rw [List.mem_range'_1]
    omega
  have hlink : scan_subnet net subnet
      = (confirmedOctets net subnet).map (hostAddr subnet) := by
    unfold scan_subnet confirmedOctets
    exact List.filter_map (hostAddr subnet) (scanRange 1 255)
  have hmin := filter_head_min (p := fun i => (check_wican net (hostAddr subnet i) 0.5).isSome)
    (List.pairwise_lt_range' 1 255) h
  obtain ⟨hpo, hmem, hleast⟩ := hmin
  have hoin := (hrange o).mp hmem
  refine ⟨⟨by decide, hrange⟩, hlink, ?_, ?_, hpo, hoin.1, hoin.2, ?_⟩
  · intro s' hs'
    simp [subnetPhase, hs']
  · have hscan : scan_subnet net subnet = hostAddr subnet o :: t.map (hostAddr subnet) := by
      rw [hlink, h, List.map_cons]
    simp [subnetPhase, hscan]
  · intro o' h1 h2 hconf
    exact hleast o' ((hrange o').mpr ⟨h1, h2⟩) hconf

/-- Witness for C6 at an environment confirming every probe: the least
confirmed octet on the swept subnet is 1. -/
theorem subnet_sweep_postcondition_witness :
    subnetPhase (fun _ _ => .ok (some .null)) ["10.0.0"] = some (hostAddr "10.0.0" 1) :=
  (subnet_sweep_postcondition (fun _ _ => .ok (some .null)) "10.0.0" []
      1 (List.range' 2 254) (by decide)).2.2.2.1

end WiCAN

namespace WiCAN

/-! ## Acquisition loop: pacing and failure notices -/

/-- `INTERVAL = 1` second. -/
def INTERVAL : ℚ := 1

/-- `sleep_time = max(0, INTERVAL - elapsed)` at the end of each tick. -/
def sleep_time (elapsed : ℚ) : ℚ := max 0 (INTERVAL - elapsed)

/-- C8: the sleep duration of a tick equals `max(0, INTERVAL - elapsed)`,
is never negative, and is exactly zero whenever the tick's work took at
least the target interval. -/
theorem sleep_time_pacing (elapsed : ℚ) :
    sleep_time elapsed = max 0 (INTERVAL - elapsed) ∧
    0 ≤ sleep_time elapsed ∧
    (INTERVAL ≤ elapsed → sleep_time elapsed = 0) := by
  refine ⟨rfl, le_max_left 0 _, ?_⟩
  intro h
  have hle : INTERVAL - elapsed ≤ 0 := by linarith
  simpa [sleep_time] using max_eq_left hle

/-- Witness for C8 at a tick that took 2 seconds: the sleep is zero. -/
theorem sleep_time_pacing_witness : sleep_time 2 = 0 :=
  (sleep_time_pacing 2).2.2 (by norm_num [INTERVAL])

/-- The failure branch's notice condition after incrementing
`error_count`: `error_count == 1`, `elif error_count % 10 == 0`. -/
def noticeOnFailure (error_count : ℕ) : Bool :=
  if error_count == 1 then true else error_count % 10 == 0

/-- One tick of the loop acting on `(error_count, notices emitted)`: a
successful tick resets `error_count` to 0 and emits nothing; a failed tick
increments it and emits a notice per `noticeOnFailure`. -/
def loopTick (s : ℕ × ℕ) (success : Bool) : ℕ × ℕ :=
  if success then (0, s.2)
  else ((s.1 + 1), s.2 + (if noticeOnFailure (s.1 + 1) then 1 else 0))

/-- Run the loop over a list of tick outcomes. -/
def runTicks (s : ℕ × ℕ) (outcomes : List Bool) : ℕ × ℕ :=
  outcomes.foldl loopTick s

/-- C9: the consecutive-failure counter resets on success and increments
on failure; notices in a fresh streak fire exactly at failures 1 and 10
within the first 15, so 15 consecutive failures emit exactly 2 notices. -/
theorem failure_notice_cadence :
    (∀ c n, loopTick (c, n) true = (0, n)) ∧
    (∀ c n, (loopTick (c, n) false).1 = c + 1) ∧
    (runTicks (0, 0) (List.replicate 15 false)).2 = 2 ∧
    (List.range' 1 15).filter (fun j => noticeOnFailure j) = [1, 10] := by
  refine ⟨fun c n => rfl, fun c n => rfl, by decide, by decide⟩

end WiCAN

namespace WiCAN

/-! ## Python dictionaries (rows and readings) -/

/-- A Python `dict` with string keys and (stringified) scalar values,
modelled as an association list in insertion order. -/
abbrev Dict : Type := List (String × String)

/-- The keys of a dict, in order. -/
def keys (d : Dict) : List String := d.map Prod.fst

theorem keys_nil : keys [] = [] := rfl

theorem keys_cons (p : String × String) (d : Dict) :
    keys (p :: d) = p.1 :: keys d := rfl

theorem keys_append (d d' : Dict) : keys (d ++ d') = keys d ++ keys d' :=
  List.map_append Prod.fst d d'

/-- `d[k] = v`: overwrite in place if `k` is present, else append. -/
def dictInsert (d : Dict) (k v : String) : Dict :=
  if (keys d).contains k then
    d.map (fun p => if p.1 = k then (k, v) else p)
  else
    d ++ [(k, v)]

/-- `d.update(pairs)`: insert every pair in order. -/
def dictUpdate (d : Dict) (pairs : Dict) : Dict :=
  pairs.foldl (fun acc p => dictInsert acc p.1 p.2) d

/-- Dictionary access `d.get(k)`. -/
def dlookup (k : String) : Dict → Option String
  | [] => none
  | (k', v) :: d => if k' = k then some v else dlookup k d

theorem dlookup_cons (k k1 v1 : String) (d : Dict) :
    dlookup k ((k1, v1) :: d) = if k1 = k then some v1 else dlookup k d := rfl

/-- `row = {"timestamp": timestamp}; row.update(data)` in `main`. -/
def mkRow (ts : String) (data : Dict) : Dict :=
  dictUpdate [("timestamp", ts)] data

theorem dlookup_eq_none {k : String} {d : Dict} :
    dlookup k d = none ↔ k ∉ keys d := by
  induction d with
  | nil => simp [dlookup, keys_nil]
  | cons p d ih =>
    obtain ⟨k', v⟩ := p
    rw [dlookup_cons, keys_cons]
    by_cases h : k' = k
    · subst h
      simp
    · simp only [h, if_false, List.mem_cons, not_or]
      rw [ih]
      constructor
      · intro hk
        exact ⟨fun hx => h hx.symm, hk⟩
      · intro hk
        exact hk.2

theorem keys_dictInsert (d : Dict) (k v : String) :
    keys (dictInsert d k v) = if k ∈ keys d then keys d else keys d ++ [k] := by
  unfold dictInsert
  by_cases h : k ∈ keys d
  · rw [if_pos (by simpa using h), if_pos h]
    unfold keys
    rw [List.map_map]
    congr 1
    funext p
    by_cases hp : p.1 = k
    · simp [hp, Function.comp]
    · simp [hp, Function.comp]
  · rw [if_neg (by simpa using h), if_neg h]
    rw [keys_append]
    rfl

theorem nodup_keys_dictInsert {d : Dict} (hd : (keys d).Nodup) (k v : String) :
    (keys (dictInsert d k v)).Nodup := by
  rw [keys_dictInsert]
  by_cases h : k ∈ keys d
  · rwa [if_pos h]
  · rw [if_neg h]
    rw [List.nodup_append]
    refine ⟨hd, List.nodup_singleton k, ?_⟩
    intro a ha hax
    rw [List.mem_singleton] at hax
    subst hax
    exact h ha

theorem dlookup_map_overwrite_ne (d : Dict) {k k' : String} (v : String) (h : k' ≠ k) :
    dlookup k' (d.map (fun p => if p.1 = k then (k, v) else p)) = dlookup k' d := by
  induction d with
  | nil => rfl
  | cons p d ih =>
    obtain ⟨k1, v1⟩ := p
    rw [List.map_cons]
    by_cases hk : k1 = k
    · subst hk
      rw [if_pos rfl, dlookup_cons, dlookup_cons, if_neg (Ne.symm h), if_neg ?side]
      · exact ih
      case side =>
        intro hx
        exact h hx.symm
    · rw [if_neg hk, dlookup_cons, dlookup_cons]
      by_cases hk' : k1 = k'
      · rw [if_pos hk', if_pos hk']
      · rw [if_neg hk', if_neg hk']
        exact ih

theorem dlookup_map_overwrite_self (d : Dict) {k : String} (v : String)
    (h : k ∈ keys d) :
    dlookup k (d.map (fun p => if p.1 = k then (k, v) else p)) = some v := by
  induction d with
  | nil => simp [keys_nil] at h
  | cons p d ih =>
    obtain ⟨k1, v1⟩ := p
    rw [List.map_cons]
    by_cases hk : k1 = k
    · subst hk
      rw [if_pos rfl, dlookup_cons, if_pos rfl]
    · have h' : k ∈ keys d := by
        rw [keys_cons] at h
        rcases List.mem_cons.mp h with hx | hx
        · exact absurd hx.symm hk
        · exact hx
      rw [if_neg hk, dlookup_cons, if_neg hk]
      exact ih h'

theorem dlookup_append_single_ne (d : Dict) {k k' : String} (v : String) (h : k' ≠ k) :
    dlookup k' (d ++ [(k, v)]) = dlookup k' d := by
  induction d with
  | nil =>
    rw [List.nil_append]
    rw [dlookup_cons, if_neg (fun hx => h hx.symm)]
  | cons p d ih =>
    obtain ⟨k1, v1⟩ := p
    rw [List.cons_append, dlookup_cons, dlookup_cons]
    by_cases hk : k1 = k'
    · rw [if_pos hk, if_pos hk]
    · rw [if_neg hk, if_neg hk]
      exact ih

theorem dlookup_append_single_self (d : Dict) {k : String} (v : String)
    (h : k ∉ keys d) :
    dlookup k (d ++ [(k, v)]) = some v := by
  induction d with
  | nil =>
    rw [List.nil_append, dlookup_cons, if_pos rfl]
  | cons p d ih =>
    obtain ⟨k1, v1⟩ := p
    rw [keys_cons] at h
    have hk : k1 ≠ k := fun hx => h (hx ▸ List.mem_cons_self k1 (keys d))
    have h' : k ∉ keys d := fun hx => h (List.mem_cons_of_mem k1 hx)
    rw [List.cons_append, dlookup_cons, if_neg hk]
    exact ih h'

theorem dlookup_dictInsert_self (d : Dict) (k v : String) :
    dlookup k (dictInsert d k v) = some v := by
  unfold dictInsert
  by_cases h : k ∈ keys d
  · rw [if_pos (by simpa using h)]
    exact dlookup_map_overwrite_self d v h
  · rw [if_neg (by simpa using h)]
    exact dlookup_append_single_self d v h

theorem dlookup_dictInsert_ne (d : Dict) {k k' : String} (v : String) (h : k' ≠ k) :
    dlookup k' (dictInsert d k v) = dlookup k' d := by
  unfold dictInsert
  by_cases hc : (keys d).contains k
  · rw [if_pos hc]
    exact dlookup_map_overwrite_ne d v h
  · rw [if_neg hc]
    exact dlookup_append_single_ne d v h

theorem mem_keys_dictInsert {d : Dict} {k k' : String} (v : String) :
    k' ∈ keys (dictInsert d k v) ↔ k' ∈ keys d ∨ k' = k := by
  rw [keys_dictInsert]
  by_cases h : k ∈ keys d
  · rw [if_pos h]
    constructor
    · exact Or.inl
    · rintro (hx | rfl)
      · exact hx
      · exact h
  · rw [if_neg h]
    simp

end WiCAN

namespace WiCAN

theorem dictUpdate_nil (d : Dict) : dictUpdate d [] = d := rfl

theorem dictUpdate_cons (d : Dict) (k1 v1 : String) (ps : Dict) :
    dictUpdate d ((k1, v1) :: ps) = dictUpdate (dictInsert d k1 v1) ps := rfl

theorem mem_keys_dictUpdate {k : String} (d ps : Dict) :
    k ∈ keys (dictUpdate d ps) ↔ k ∈ keys d ∨ k ∈ keys ps := by
  induction ps generalizing d with
  | nil => simp [dictUpdate_nil, keys_nil]
  | cons p ps ih =>
    obtain ⟨k1, v1⟩ := p
    rw [dictUpdate_cons, ih, mem_keys_dictInsert, keys_cons]
    simp only [List.mem_cons]
    tauto

theorem nodup_keys_dictUpdate {d : Dict} (hd : (keys d).Nodup) (ps : Dict) :
    (keys (dictUpdate d ps)).Nodup := by
  induction ps generalizing d with
  | nil => exact hd
  | cons p ps ih =>
    obtain ⟨k1, v1⟩ := p
    rw [dictUpdate_cons]
    exact ih (nodup_keys_dictInsert hd k1 v1)

theorem dlookup_dictUpdate_not_mem {k : String} (d : Dict) {ps : Dict}
    (h : k ∉ keys ps) :
    dlookup k (dictUpdate d ps) = dlookup k d := by
  induction ps generalizing d with
  | nil => rfl
  | cons p ps ih =>
    obtain ⟨k1, v1⟩ := p
    rw [keys_cons] at h
    have hk : k ≠ k1 := fun hx => h (hx ▸ List.mem_cons_self k1 (keys ps))
    have h' : k ∉ keys ps := fun hx => h (List.mem_cons_of_mem k1 hx)
    rw [dictUpdate_cons, ih (dictInsert d k1 v1) h', dlookup_dictInsert_ne d v1 hk]

theorem dlookup_dictUpdate_mem {k v : String} (d : Dict) {ps : Dict}
    (hnd : (keys ps).Nodup) (h : dlookup k ps = some v) :
    dlookup k (dictUpdate d ps) = some v := by
  induction ps generalizing d with
  | nil => cases h
  | cons p ps ih =>
    obtain ⟨k1, v1⟩ := p
    rw [keys_cons] at hnd
    rw [dlookup_cons] at h
    rw [dictUpdate_cons]
    by_cases hk : k1 = k
    · subst hk
      rw [if_pos rfl] at h
      have hout : k1 ∉ keys ps := (List.nodup_cons.mp hnd).1
      rw [dlookup_dictUpdate_not_mem _ hout, dlookup_dictInsert_self]
      exact h
    · rw [if_neg hk] at h
      exact ih (dictInsert d k1 v1) (List.nodup_cons.mp hnd).2 h

theorem mem_keys_mkRow {k : String} (ts : String) (data : Dict) :
    k ∈ keys (mkRow ts data) ↔ k = "timestamp" ∨ k ∈ keys data := by
  unfold mkRow
  rw [mem_keys_dictUpdate]
  rw [keys_cons, keys_nil]
  simp

theorem nodup_keys_mkRow (ts : String) (data : Dict) :
    (keys (mkRow ts data)).Nodup := by
  unfold mkRow
  exact nodup_keys_dictUpdate (by simp [keys_cons, keys_nil]) data

/-- C10: the device-supplied `"timestamp"` key, when present, overwrites
the capture timestamp in the logged row; otherwise the row's timestamp
column holds the capture time. -/
theorem mkRow_timestamp_overwrite (ts : String) (data : Dict)
    (hnd : (keys data).Nodup) :
    (∀ v, dlookup "timestamp" data = some v →
       dlookup "timestamp" (mkRow ts data) = some v) ∧
    (dlookup "timestamp" data = none →
       dlookup "timestamp" (mkRow ts data) = some ts) := by
  constructor
  · intro v hv
    exact dlookup_dictUpdate_mem _ hnd hv
  · intro hnone
    unfold mkRow
    rw [dlookup_dictUpdate_not_mem _ (dlookup_eq_none.mp hnone)]
    rw [dlookup_cons, if_pos rfl]

/-- Witness for C10: a reading carrying its own `"timestamp"` field makes
the row's timestamp column hold the device value, not the capture time. -/
theorem mkRow_timestamp_overwrite_witness :
    dlookup "timestamp" (mkRow "2024-01-01T00:00:00" [("timestamp", "DEVICE")])
      = some "DEVICE" :=
  (mkRow_timestamp_overwrite "2024-01-01T00:00:00" [("timestamp", "DEVICE")]
      (by decide)).1 "DEVICE" (by decide)

end WiCAN

namespace WiCAN

/-! ## Schema-evolving log writer

The per-tick recording code of `main` (lines 350–379) acting on the state
`fieldnames`, `all_rows`, `row_count` and the CSV file, plus
`rewrite_csv`.  The CSV file is modelled as its list of written lines
(each a list of cells); `csv.DictWriter.writerow` renders a dict row under
the current fieldnames with `''` for absent fields. -/

/-- One reading handed to the writer: the captured row dict. -/
def readingRow (p : String × Dict) : Dict := mkRow p.1 p.2

/-- `csv.DictWriter(fieldnames).writerow(r)`: one cell per field, empty
for a field absent from the row. -/
def renderRow (F : List String) (r : Dict) : List String :=
  F.map (fun f => (dlookup f r).getD "")

/-- `sorted(set(row.keys()) - set(fieldnames))`: the row's not-yet-known
field names in sorted order. -/
def newKeysOf (fieldnames : List String) (row : Dict) : List String :=
  List.insertionSort (· ≤ ·) ((keys row).filter (fun k => !(fieldnames.contains k)))

/-- `rewrite_csv(filepath, fieldnames, all_rows)`: header then every
previously captured row rendered under the new fieldnames. -/
def rewrite_csv (fieldnames : List String) (all_rows : List Dict) : List (List String) :=
  fieldnames :: all_rows.map (renderRow fieldnames)

/-- The writer state inside `main`'s loop. -/
structure LogState where
  fieldnames : List String
  all_rows : List Dict
  row_count : ℕ
  file : List (List String)

/-- State before the first tick: `fieldnames = ["timestamp"]`,
`all_rows = []`, `row_count = 0`, and no file written yet. -/
def initState : LogState := ⟨["timestamp"], [], 0, []⟩

/-- One successful tick's recording (lines 352–379): build the row,
extend the fieldnames by the sorted new keys (extending by the empty list
is a no-op, folded into one append), rewrite the whole file when new keys
appear after the first row, then append the row — with a header first when
`row_count == 0 or csvfile.tell() == 0`. -/
def recordStep (s : LogState) (ts : String) (data : Dict) : LogState :=
  let row := mkRow ts data
  let new_keys := newKeysOf s.fieldnames row
  let fieldnames' := s.fieldnames ++ new_keys
  let file1 :=
    if new_keys ≠ [] ∧ s.row_count ≠ 0 then rewrite_csv fieldnames' s.all_rows
    else s.file
  let file2 :=
    if s.row_count = 0 ∨ file1 = [] then (file1 ++ [fieldnames']) ++ [renderRow fieldnames' row]
    else file1 ++ [renderRow fieldnames' row]
  ⟨fieldnames', s.all_rows ++ [row], s.row_count + 1, file2⟩

/-- Run the writer over a session's successful readings. -/
def runLog (readings : List (String × Dict)) : LogState :=
  readings.foldl (fun s p => recordStep s p.1 p.2) initState

theorem recordStep_fieldnames (s : LogState) (ts : String) (data : Dict) :
    (recordStep s ts data).fieldnames
      = s.fieldnames ++ newKeysOf s.fieldnames (mkRow ts data) := rfl

theorem recordStep_all_rows (s : LogState) (ts : String) (data : Dict) :
    (recordStep s ts data).all_rows = s.all_rows ++ [mkRow ts data] := rfl

theorem recordStep_row_count (s : LogState) (ts : String) (data : Dict) :
    (recordStep s ts data).row_count = s.row_count + 1 := rfl

theorem mem_newKeysOf {x : String} (F : List String) (r : Dict) :
    x ∈ newKeysOf F r ↔ x ∈ keys r ∧ x ∉ F := by
  unfold newKeysOf
  rw [(List.perm_insertionSort _ _).mem_iff, List.mem_filter]
  simp

theorem newKeysOf_sorted (F : List String) (r : Dict) :
    List.Sorted (· ≤ ·) (newKeysOf F r) :=
  List.sorted_insertionSort _ _

end WiCAN

namespace WiCAN

/-- Loop invariant of the writer state: `row_count` counts the rows, every
recorded row's keys are in the schema, and the file is exactly the header
plus every recorded row rendered under the current schema (no file exists
before the first row). -/
def goodState (s : LogState) : Prop :=
  s.row_count = s.all_rows.length ∧
  (∀ r ∈ s.all_rows, ∀ x ∈ keys r, x ∈ s.fieldnames) ∧
  s.file = if s.all_rows = [] then []
           else s.fieldnames :: s.all_rows.map (renderRow s.fieldnames)

theorem initState_good : goodState initState := by
  refine ⟨rfl, ?_, rfl⟩
  intro r hr
  cases hr

theorem recordStep_file (s : LogState) (ts : String) (data : Dict) :
    (recordStep s ts data).file =
      if s.row_count = 0 ∨
          (if newKeysOf s.fieldnames (mkRow ts data) ≠ [] ∧ s.row_count ≠ 0
           then rewrite_csv (s.fieldnames ++ newKeysOf s.fieldnames (mkRow ts data)) s.all_rows
           else s.file) = [] then
        ((if newKeysOf s.fieldnames (mkRow ts data) ≠ [] ∧ s.row_count ≠ 0
          then rewrite_csv (s.fieldnames ++ newKeysOf s.fieldnames (mkRow ts data)) s.all_rows
          else s.file)
          ++ [s.fieldnames ++ newKeysOf s.fieldnames (mkRow ts data)])
          ++ [renderRow (s.fieldnames ++ newKeysOf s.fieldnames (mkRow ts data)) (mkRow ts data)]
      else
        (if newKeysOf s.fieldnames (mkRow ts data) ≠ [] ∧ s.row_count ≠ 0
         then rewrite_csv (s.fieldnames ++ newKeysOf s.fieldnames (mkRow ts data)) s.all_rows
         else s.file)
          ++ [renderRow (s.fieldnames ++ newKeysOf s.fieldnames (mkRow ts data)) (mkRow ts data)] :=
  rfl

theorem recordStep_good {s : LogState} (h : goodState s) (ts : String) (data : Dict) :
    goodState (recordStep s ts data) := by
  obtain ⟨hrc, hkeys, hfile⟩ := h
  refine ⟨?_, ?_, ?_⟩
  · rw [recordStep_row_count, recordStep_all_rows, hrc, List.length_append,
      List.length_singleton]
  · rw [recordStep_all_rows, recordStep_fieldnames]
    intro r hr x hx
    rcases List.mem_append.mp hr with h1 | h2
    · exact List.mem_append_left _ (hkeys r h1 x hx)
    · rw [List.mem_singleton] at h2
      subst h2
      by_cases hm : x ∈ s.fieldnames
      · exact List.mem_append_left _ hm
      · exact List.mem_append_right _ ((mem_newKeysOf _ _).mpr ⟨hx, hm⟩)
  · rw [recordStep_file, recordStep_all_rows, recordStep_fieldnames]
    rw [if_neg (show ¬(s.all_rows ++ [mkRow ts data] = []) by simp)]
    by_cases hrows : s.all_rows = []
    · have hrc0 : s.row_count = 0 := by rw [hrc, hrows]; rfl
      have hfile0 : s.file = [] := by rw [hfile, if_pos hrows]
      rw [if_neg (show ¬(newKeysOf s.fieldnames (mkRow ts data) ≠ [] ∧ s.row_count ≠ 0) by
        simp [hrc0])]
      rw [if_pos (Or.inl hrc0), hfile0, hrows]
      simp
    · have hrcne : s.row_count ≠ 0 := by
        rw [hrc]
        simpa using fun hx => hrows (List.length_eq_zero.mp hx)
      by_cases hnk : newKeysOf s.fieldnames (mkRow ts data) = []
      · have hfile1 : s.file = s.fieldnames :: s.all_rows.map (renderRow s.fieldnames) := by
          rw [hfile, if_neg hrows]
        rw [if_neg (show ¬(newKeysOf s.fieldnames (mkRow ts data) ≠ [] ∧ s.row_count ≠ 0) by
          simp [hnk])]
        rw [if_neg (show ¬(s.row_count = 0 ∨ s.file = []) by simp [hrcne, hfile1])]
        rw [hnk, List.append_nil, hfile1]
        simp [List.map_append]
      · rw [if_pos (show newKeysOf s.fieldnames (mkRow ts data) ≠ [] ∧ s.row_count ≠ 0 from
          ⟨hnk, hrcne⟩)]
        rw [if_neg (show ¬(s.row_count = 0 ∨
            rewrite_csv (s.fieldnames ++ newKeysOf s.fieldnames (mkRow ts data)) s.all_rows = [])
          by simp [rewrite_csv, hrcne])]
        unfold rewrite_csv
        simp [List.map_append]

/-- `goodState` holds after any run of the writer. -/
theorem runLogAux_good :
    ∀ (l : List (String × Dict)) (st : LogState), goodState st →
      goodState (l.foldl (fun s p => recordStep s p.1 p.2) st)
  | [], _, h => h
  | p :: l, _, h => runLogAux_good l _ (recordStep_good h p.1 p.2)

theorem runLog_good (readings : List (String × Dict)) : goodState (runLog readings) :=
  runLogAux_good readings initState initState_good

theorem foldl_all_rows :
    ∀ (l : List (String × Dict)) (st : LogState),
      (l.foldl (fun s p => recordStep s p.1 p.2) st).all_rows
        = st.all_rows ++ l.map readingRow
  | [], _ => by simp
  | p :: l, st => by
    rw [List.foldl_cons, foldl_all_rows l _, recordStep_all_rows, List.map_cons,
      List.append_assoc]
    rfl

theorem runLog_all_rows (readings : List (String × Dict)) :
    (runLog readings).all_rows = readings.map readingRow := by
  rw [runLog, foldl_all_rows]
  rfl

/-- After at least one reading, the file is the final header followed by
every captured row rendered under the final schema. -/
theorem runLog_file (readings : List (String × Dict)) (hne : readings ≠ []) :
    (runLog readings).file = (runLog readings).fieldnames ::
      (readings.map readingRow).map (renderRow (runLog readings).fieldnames) := by
  obtain ⟨-, -, hfile⟩ := runLog_good readings
  rw [hfile, runLog_all_rows, if_neg (by simpa using hne)]

end WiCAN

namespace WiCAN

/-- The cell of a rendered CSV row in the column headed `g` (the empty
string when `g` is not a column or the row is short). -/
def getCell (F : List String) (cells : List String) (g : String) : String :=
  cells.getD (F.indexOf g) ""

theorem getD_map_of_lt {α β : Type} (f : α → β) (d : α) (d' : β) :
    ∀ (l : List α) (i : ℕ), i < l.length → (l.map f).getD i d' = f (l.getD i d)
  | [], i, h => absurd h (Nat.not_lt_zero i)
  | _ :: _, 0, _ => rfl
  | _ :: l, i + 1, h =>
    getD_map_of_lt f d d' l i (Nat.lt_of_succ_lt_succ h)

theorem getD_mem_of_lt {α : Type} (d : α) :
    ∀ (l : List α) (i : ℕ), i < l.length → l.getD i d ∈ l
  | [], i, h => absurd h (Nat.not_lt_zero i)
  | a :: l, 0, _ => List.mem_cons_self a l
  | a :: l, i + 1, h =>
    List.mem_cons_of_mem a (getD_mem_of_lt d l i (Nat.lt_of_succ_lt_succ h))

theorem getCell_renderRow {F : List String} {g : String} (r : Dict) (h : g ∈ F) :
    getCell F (renderRow F r) g = (dlookup g r).getD "" := by
  unfold getCell renderRow
  have hidx : F.indexOf g < F.length := List.indexOf_lt_length.mpr h
  rw [List.getD_eq_getElem _ _ (by simpa using hidx), List.getElem_map]
  rw [List.getElem_indexOf]

end WiCAN

namespace WiCAN

/-- The row captured for the `j`-th reading of the session (0-indexed). -/
def rowAt (readings : List (String × Dict)) (j : ℕ) : Dict :=
  readingRow (readings.getD j ("", []))

theorem mem_keys_of_dlookup {k v : String} {d : Dict} (h : dlookup k d = some v) :
    k ∈ keys d := by
  by_contra hx
  rw [dlookup_eq_none.mpr hx] at h
  cases h

/-- C1: migration round-trip.  After `N` successful readings where the
field `f` is first introduced at reading `k` (absent from all earlier
rows), the artifact holds exactly `N` data rows under one header (the
final schema); every row before `k` has an empty cell in `f`'s column, and
every row holds, in the column of each field it reported, exactly the
value it reported. -/
theorem log_migration_roundtrip (readings : List (String × Dict)) (k : ℕ) (f : String)
    (hk : k < readings.length)
    (hintro : f ∈ keys (rowAt readings k))
    (hbefore : ∀ j, j < k → f ∉ keys (rowAt readings j)) :
    (runLog readings).file.length = readings.length + 1 ∧
    (runLog readings).file.getD 0 [] = (runLog readings).fieldnames ∧
    (∀ i, i < k →
       getCell (runLog readings).fieldnames
         ((runLog readings).file.getD (i + 1) []) f = "") ∧
    (∀ i, k ≤ i → i < readings.length → ∀ g v,
       dlookup g (rowAt readings i) = some v →
       getCell (runLog readings).fieldnames
         ((runLog readings).file.getD (i + 1) []) g = v) := by
  have hne : readings ≠ [] := by
    intro hx
    rw [hx] at hk
    exact absurd hk (by simp)
  have hfileEq := runLog_file readings hne
  have hrowmem : ∀ i, i < readings.length →
      rowAt readings i ∈ (runLog readings).all_rows := by
    intro i hi
    rw [runLog_all_rows]
    exact List.mem_map_of_mem readingRow (getD_mem_of_lt ("", []) readings i hi)
  have hkeysF : ∀ i, i < readings.length →
      ∀ x ∈ keys (rowAt readings i), x ∈ (runLog readings).fieldnames := by
    intro i hi x hx
    obtain ⟨-, hkeys, -⟩ := runLog_good readings
    exact hkeys _ (hrowmem i hi) x hx
  have hcell : ∀ i, i < readings.length →
      (runLog readings).file.getD (i + 1) []
        = renderRow (runLog readings).fieldnames (rowAt readings i) := by
    intro i hi
    rw [hfileEq, List.getD_cons_succ]
    rw [getD_map_of_lt (renderRow (runLog readings).fieldnames) (readingRow ("", []))
      [] _ i (by simpa using hi)]
    rw [getD_map_of_lt readingRow ("", []) _ readings i hi]
    rfl
  refine ⟨?_, ?_, ?_, ?_⟩
  · rw [hfileEq]
    simp
  · rw [hfileEq]
    rfl
  · intro i hik
    have hi : i < readings.length := lt_trans hik hk
    rw [hcell i hi, getCell_renderRow _ (hkeysF k hk f hintro)]
    rw [dlookup_eq_none.mpr (hbefore i hik)]
    rfl
  · intro i hki hi g v hgv
    rw [hcell i hi]
    have hg : g ∈ keys (rowAt readings i) := mem_keys_of_dlookup hgv
    rw [getCell_renderRow _ (hkeysF i hi g hg), hgv]
    rfl

/-- A two-reading session where the field `b` first appears at the second
reading: schema growth at reading index 1. -/
def demoReadings : List (String × Dict) :=
  [("t0", [("a", "1")]), ("t1", [("a", "2"), ("b", "3")])]

/-- Witness for C1: in the demo session the first row's cell in column
`b` is empty. -/
theorem log_migration_roundtrip_witness :
    getCell (runLog demoReadings).fieldnames
      ((runLog demoReadings).file.getD 1 []) "b" = "" :=
  (log_migration_roundtrip demoReadings 1 "b" (by decide) (by decide)
    (by decide)).2.2.1 0 (by decide)

theorem foldl_fieldnames_grow :
    ∀ (l : List (String × Dict)) (st : LogState),
      st.fieldnames <+: (l.foldl (fun s p => recordStep s p.1 p.2) st).fieldnames
  | [], _ => ⟨[], List.append_nil _⟩
  | p :: l, st => by
    refine List.IsPrefix.trans ?_ (foldl_fieldnames_grow l (recordStep st p.1 p.2))
    rw [recordStep_fieldnames]
    exact ⟨_, rfl⟩

/-- C2: schema monotonicity.  The schema starts as the single column
`timestamp`; each recorded reading extends it exactly by its not-yet-known
field names, appended at the end in sorted order; hence the schema at any
earlier point of the session is a prefix of every later schema — nothing
is removed, renamed or reordered. -/
theorem schema_monotonicity :
    (runLog []).fieldnames = ["timestamp"] ∧
    (∀ rs ts data,
       (runLog (rs ++ [(ts, data)])).fieldnames
         = (runLog rs).fieldnames
             ++ newKeysOf (runLog rs).fieldnames (mkRow ts data)) ∧
    (∀ F r, List.Sorted (· ≤ ·) (newKeysOf F r) ∧
       ∀ x ∈ newKeysOf F r, x ∈ keys r ∧ x ∉ F) ∧
    (∀ rs n, (runLog (rs.take n)).fieldnames <+: (runLog rs).fieldnames) := by
  refine ⟨rfl, ?_, ?_, ?_⟩
  · intro rs ts data
    rw [runLog, runLog, List.foldl_append, List.foldl_cons, List.foldl_nil]
    exact recordStep_fieldnames _ ts data
  · intro F r
    exact ⟨newKeysOf_sorted F r, fun x hx => (mem_newKeysOf F r).mp hx⟩
  · intro rs n
    conv_rhs => rw [← List.take_append_drop n rs]
    rw [runLog, runLog, List.foldl_append]
    exact foldl_fieldnames_grow _ _

/-- Witness for C2: the single unknown field of a first reading is exactly
the new-key block appended to the initial schema. -/
theorem schema_monotonicity_witness :
    "b" ∈ keys [("b", "1")] ∧ "b" ∉ ["timestamp"] :=
  (schema_monotonicity.2.2.1 ["timestamp"] [("b", "1")]).2 "b" (by decide)

end WiCAN
